import Mathlib

/-!
# Verification of the GBWT support layer (cached record cache, Dictionary, sparse iterator)

Shallow embedding of `src/cached_gbwt.cpp` (the `CachedGBWT` record cache) together
with spec-modelled embeddings of the components whose implementations are not part of
the excerpted sources (`Dictionary`, the sparse rank/select iterator, and the helpers
declared in the missing headers `gbwt/cached_gbwt.h`, `gbwt/support.h`, `gbwt/utils.h`).

Machine integers (`node_type`, `size_type`, both 64-bit unsigned) are modelled as `Nat`;
wrap-around arithmetic is made explicit with `% W` where `W = 2^64` at the places where
the C++ code can actually wrap (search-state range arithmetic).  Comparisons and
container indices never wrap in the modelled code paths, so they are plain `Nat`
operations.
-/

namespace GbwtModel

/-- Word size: `node_type` and `size_type` are 64-bit unsigned integers. -/
def W : Nat := 2 ^ 64

/-- Modelled from the spec: `invalid_offset()` from the missing `gbwt/utils.h` — the
all-ones 64-bit value used as the "no valid offset" sentinel (`indexOffset` returns it
on probe exhaustion, src/cached_gbwt.cpp:124).  The spec calls the corresponding slot
value "a sentinel value meaning empty slot". -/
def invalidNat : Nat := 2 ^ 64 - 1

/-- `edge_type = std::pair<node_type, size_type>`: first = node, second = offset. -/
abbrev Edge := Nat × Nat

/-- Modelled from the spec: `invalid_edge()` from the missing `gbwt/utils.h`, the
sentinel stored in empty slots of the cache index. -/
def invalidEdge : Edge := (invalidNat, invalidNat)

/-! ## Dictionary (spec-modelled)

The `Dictionary` implementation is not among the excerpted sources; only its tests
(`src/tests/test_support.cpp`, `DictionaryTest`) are.  Following the spec (§3, §4.2), a
dictionary is an ordered sequence of unique string keys; the public offset of a key is
its position in that sequence.  The auxiliary sub-linear lookup structure is a pure
optimization, so the model exposes `find` directly over the key sequence. -/

/-- Modelled from the spec: `Dictionary::find(key)` — "returns the key's offset, or
`size()` if absent" (§4.2).  Keys are unique, so the first occurrence is the offset. -/
def findKey : List String → String → Nat
  | [], _ => 0
  | x :: rest, k => if x = k then 0 else findKey rest k + 1

/-- Modelled from the spec: `Dictionary::remove(offset)` — "if `offset >= size()`,
no-op.  Otherwise deletes the key at `offset`; every key previously at a higher offset
shifts down by one" (§4.2). -/
def removeAt : List String → Nat → List String
  | [], _ => []
  | _ :: rest, 0 => rest
  | x :: rest, i + 1 => x :: removeAt rest i

theorem findKey_le_length (l : List String) (k : String) : findKey l k ≤ l.length := by
  induction l with
  | nil => simp [findKey]
  | cons x rest ih =>
    by_cases h : x = k <;> simp [findKey, h] <;> omega

theorem findKey_eq_length_of_not_mem {l : List String} {k : String} (h : k ∉ l) :
    findKey l k = l.length := by
  induction l with
  | nil => simp [findKey]
  | cons x rest ih =>
    simp only [List.mem_cons, not_or] at h
    simp [findKey, Ne.symm h.1, ih h.2]

theorem findKey_getD {l : List String} (hn : l.Nodup) {j : Nat} (hj : j < l.length) :
    findKey l (l.getD j "") = j := by
  induction l generalizing j with
  | nil => simp at hj
  | cons x rest ih =>
    cases j with
    | zero => simp [findKey]
    | succ j' =>
      have hj' : j' < rest.length := by simpa using hj
      have hmem : rest.getD j' "" ∈ rest := by
        rw [List.getD_eq_getElem?_getD, List.getElem?_eq_getElem hj']
        exact List.getElem_mem hj'
      have hx : x ≠ rest.getD j' "" := by
        intro hcontra
        exact (List.nodup_cons.mp hn).1 (hcontra ▸ hmem)
      simp only [List.getD_cons_succ, findKey, if_neg hx]
      rw [ih (List.nodup_cons.mp hn).2 hj']

theorem removeAt_length {l : List String} {i : Nat} (hi : i < l.length) :
    (removeAt l i).length = l.length - 1 := by
  induction l generalizing i with
  | nil => simp at hi
  | cons x rest ih =>
    cases i with
    | zero => simp [removeAt]
    | succ i' =>
      have : i' < rest.length := by simpa using hi
      simp [removeAt, ih this]
      omega

theorem removeAt_of_length_le {l : List String} {i : Nat} (hi : l.length ≤ i) :
    removeAt l i = l := by
  induction l generalizing i with
  | nil => simp [removeAt]
  | cons x rest ih =>
    cases i with
    | zero => simp at hi
    | succ i' =>
      have : rest.length ≤ i' := by simpa using hi
      simp [removeAt, ih this]

theorem removeAt_getD_lt {l : List String} {i j : Nat} (hij : j < i) (hj : j < l.length) :
    (removeAt l i).getD j "" = l.getD j "" := by
  induction l generalizing i j with
  | nil => simp at hj
  | cons x rest ih =>
    cases i with
    | zero => omega
    | succ i' =>
      cases j with
      | zero => simp [removeAt]
      | succ j' =>
        have hij' : j' < i' := by omega
        have hj' : j' < rest.length := by simpa using hj
        show (x :: removeAt rest i').getD (j' + 1) "" = (x :: rest).getD (j' + 1) ""
        rw [List.getD_cons_succ, List.getD_cons_succ]
        exact ih hij' hj'

theorem removeAt_getD_ge {l : List String} {i j : Nat} (hij : i < j) (hj : j < l.length) :
    (removeAt l i).getD (j - 1) "" = l.getD j "" := by
  induction l generalizing i j with
  | nil => simp at hj
  | cons x rest ih =>
    cases i with
    | zero =>
      cases j with
      | zero => omega
      | succ j' => simp [removeAt]
    | succ i' =>
      cases j with
      | zero => omega
      | succ j' =>
        have hj' : j' < rest.length := by simpa using hj
        cases j' with
        | zero => omega
        | succ j'' =>
          have hij' : i' < j'' + 1 := by omega
          have := ih hij' hj'
          simpa [removeAt] using this

theorem mem_removeAt {l : List String} {i : Nat} {a : String} (h : a ∈ removeAt l i) :
    a ∈ l := by
  induction l generalizing i with
  | nil => simp [removeAt] at h
  | cons x rest ih =>
    cases i with
    | zero => exact List.mem_cons_of_mem _ h
    | succ i' =>
      simp only [removeAt, List.mem_cons] at h
      rcases h with h | h
      · exact h ▸ List.mem_cons_self x rest
      · exact List.mem_cons_of_mem _ (ih h)

theorem nodup_removeAt {l : List String} (hn : l.Nodup) (i : Nat) :
    (removeAt l i).Nodup := by
  induction l generalizing i with
  | nil => simp [removeAt]
  | cons x rest ih =>
    cases i with
    | zero => exact (List.nodup_cons.mp hn).2
    | succ i' =>
      rw [removeAt, List.nodup_cons]
      refine ⟨fun hmem => (List.nodup_cons.mp hn).1 (mem_removeAt hmem),
        ih (List.nodup_cons.mp hn).2 i'⟩

theorem getD_removed_not_mem {l : List String} (hn : l.Nodup) {i : Nat}
    (hi : i < l.length) : l.getD i "" ∉ removeAt l i := by
  induction l generalizing i with
  | nil => simp at hi
  | cons x rest ih =>
    cases i with
    | zero =>
      simpa [removeAt] using (List.nodup_cons.mp hn).1
    | succ i' =>
      have hi' : i' < rest.length := by simpa using hi
      have hmem : rest.getD i' "" ∈ rest := by
        rw [List.getD_eq_getElem?_getD, List.getElem?_eq_getElem hi']
        exact List.getElem_mem hi'
      intro hcontra
      simp only [removeAt, List.getD_cons_succ, List.mem_cons] at hcontra
      rcases hcontra with hcontra | hcontra
      · exact (List.nodup_cons.mp hn).1 (hcontra ▸ hmem)
      · exact ih (List.nodup_cons.mp hn).2 hi' hcontra

/-! ## SparseRankSelect (spec-modelled)

The `SDIterator` implementation and the underlying `sdsl::sd_vector` are not among the
excerpted sources; only their tests (`src/tests/test_support.cpp`, `SDIteratorTest`)
are.  Following the spec (§3, §4.3), the target vector is a strictly increasing
sequence of set-bit positions in a universe `[0, U)`, stored in a high/low split
encoding: the low `lowWidth` bits of each value are stored verbatim, and the high parts
are stored in unary with one zero-marker terminating each "bucket" (0-run boundary).  A
predecessor query at `x` first locates the zero-marker of bucket `x >>> lowWidth`; if
the encoding does not reserve that marker the lookup is undefined (§3: the encoding
"must reserve strictly more zero-markers than the theoretical minimum whenever that
minimum itself is an exact power of two — otherwise a predecessor query exactly at the
universe boundary is undefined"). -/

/-- Modelled from the spec: the sparse monotone bitvector in its high/low split
encoding.  `univSize` is the universe `U`, `lowWidth` the number of low bits,
`zeroMarkers` the number of 0-run boundary markers reserved by the encoding, and
`values` the strictly increasing set-bit positions. -/
structure SDVector where
  univSize : Nat
  lowWidth : Nat
  zeroMarkers : Nat
  values : List Nat

/-- Theoretical minimum number of zero-markers: one boundary for every bucket that a
value inside the universe `[0, U)` can occupy, i.e. buckets `0 .. (U-1) >>> lowWidth`. -/
def zeroMarkersMin (u w : Nat) : Nat := ((u - 1) >>> w) + 1

/-- Modelled from the spec: well-formedness of the encoding — strictly increasing
values inside the universe, and at least the theoretical minimum of zero-markers,
strictly more whenever that minimum is an exact power of two (§3). -/
def SDVector.WF (v : SDVector) : Prop :=
  List.Chain' (· < ·) v.values ∧ (∀ a ∈ v.values, a < v.univSize) ∧
    zeroMarkersMin v.univSize v.lowWidth ≤ v.zeroMarkers ∧
    ((∃ j, zeroMarkersMin v.univSize v.lowWidth = 2 ^ j) →
      zeroMarkersMin v.univSize v.lowWidth < v.zeroMarkers)

/-- Scan for the largest value `≤ x`, carrying the 0-based rank; `none` is the end
state (no qualifying set bit). -/
def predScan : List Nat → Nat → Nat → Option (Nat × Nat)
  | [], _, _ => none
  | v :: rest, x, r => if x < v then none else some ((predScan rest x (r + 1)).getD (v, r))

/-- Modelled from the spec: a predecessor-mode iterator construction.  The query first
needs the zero-marker of bucket `x >>> lowWidth`; if the encoding reserved it, the
result is the largest set bit `≤ x` together with its rank (`none` = end state).  If
the marker is missing the boundary lookup is undefined (modelled as `none`). -/
def sdPredecessor (v : SDVector) (x : Nat) : Option (Nat × Nat) :=
  if x >>> v.lowWidth < v.zeroMarkers then predScan v.values x 0 else none

theorem predScan_all_le {l : List Nat} {x : Nat} (hne : l ≠ [])
    (hall : ∀ a ∈ l, a ≤ x) (r : Nat) :
    predScan l x r = some (l.getLast hne, r + l.length - 1) := by
  induction l generalizing r with
  | nil => exact absurd rfl hne
  | cons v rest ih =>
    have hv : ¬ x < v := not_lt.mpr (hall v (List.mem_cons_self v rest))
    rcases eq_or_ne rest [] with hrest | hrest
    · subst hrest
      simp [predScan, hv, List.getLast]
    · have hthis := ih hrest (fun a ha => hall a (List.mem_cons_of_mem _ ha)) (r + 1)
      have hlast : (v :: rest).getLast hne = rest.getLast hrest := List.getLast_cons hrest
      have hlen : 1 ≤ rest.length := by
        cases rest
        · exact absurd rfl hrest
        · simp
      simp only [predScan, if_neg hv, hthis, Option.getD_some, hlast, List.length_cons]
      have harith : r + 1 + rest.length - 1 = r + (rest.length + 1) - 1 := by omega
      rw [harith]

theorem chain_lt_le_getLast {l : List Nat} (hc : List.Chain' (· < ·) l) (hne : l ≠ []) :
    ∀ a ∈ l, a ≤ l.getLast hne := by
  induction l with
  | nil => exact absurd rfl hne
  | cons v rest ih =>
    intro a ha
    rcases eq_or_ne rest [] with hrest | hrest
    · subst hrest
      simp only [List.mem_singleton] at ha
      simp [ha, List.getLast]
    · rw [List.getLast_cons hrest]
      have htail : List.Chain' (· < ·) rest := List.Chain'.tail hc
      rcases List.mem_cons.mp ha with rfl | hmem
      · obtain ⟨b, bs, hbs⟩ := List.exists_cons_of_ne_nil hrest
        subst hbs
        have hstep : a < b := (List.chain'_cons.mp hc).1
        exact le_of_lt (lt_of_lt_of_le hstep
          (ih htail (by simp) b (List.mem_cons_self b bs)))
      · exact ih htail hrest a hmem

theorem bucket_lt_zeroMarkers (v : SDVector) (hwf : v.WF) {x : Nat}
    (hxu : x < v.univSize ∨ (x = v.univSize ∧ ∃ j, v.univSize = 2 ^ j)) :
    x >>> v.lowWidth < v.zeroMarkers := by
  obtain ⟨-, -, hmin, htwo⟩ := hwf
  rcases hxu with hlt | ⟨rfl, j, hj⟩
  · have h1 : x ≤ v.univSize - 1 := by omega
    have h2 : x >>> v.lowWidth ≤ (v.univSize - 1) >>> v.lowWidth := by
      rw [Nat.shiftRight_eq_div_pow, Nat.shiftRight_eq_div_pow]
      exact Nat.div_le_div_right h1
    have : x >>> v.lowWidth < zeroMarkersMin v.univSize v.lowWidth := by
      unfold zeroMarkersMin; omega
    omega
  · rcases le_or_lt v.lowWidth j with hw | hw
    · have hsplit : (2 : Nat) ^ j = 2 ^ v.lowWidth * 2 ^ (j - v.lowWidth) := by
        rw [← pow_add]
        congr 1
        omega
      have hbucket : v.univSize >>> v.lowWidth = 2 ^ (j - v.lowWidth) := by
        rw [hj, Nat.shiftRight_eq_div_pow, hsplit,
          Nat.mul_div_cancel_left _ (Nat.pos_pow_of_pos _ (by norm_num))]
      have hpred : (2 ^ j - 1) >>> v.lowWidth = 2 ^ (j - v.lowWidth) - 1 := by
        rw [Nat.shiftRight_eq_div_pow, hsplit]
        have hpos : 1 ≤ 2 ^ (j - v.lowWidth) := Nat.one_le_two_pow
        have hpos' : 1 ≤ 2 ^ v.lowWidth := Nat.one_le_two_pow
        have hrw : 2 ^ v.lowWidth * 2 ^ (j - v.lowWidth) - 1 =
            2 ^ v.lowWidth * (2 ^ (j - v.lowWidth) - 1) + (2 ^ v.lowWidth - 1) := by
          cases Nat.exists_eq_add_of_le hpos with
          | intro m hm =>
            rw [hm]
            simp only [Nat.add_sub_cancel_left]
            have hdist : 2 ^ v.lowWidth * (1 + m) = 2 ^ v.lowWidth * m + 2 ^ v.lowWidth := by
              ring
            omega
        rw [hrw, Nat.mul_add_div (Nat.pos_pow_of_pos _ (by norm_num)),
          Nat.div_eq_of_lt (by omega), Nat.add_zero]
      have hminval : zeroMarkersMin v.univSize v.lowWidth = 2 ^ (j - v.lowWidth) := by
        unfold zeroMarkersMin
        rw [hj, hpred]
        have : 1 ≤ 2 ^ (j - v.lowWidth) := Nat.one_le_two_pow
        omega
      have := htwo ⟨j - v.lowWidth, hminval⟩
      omega
  -- j < lowWidth: the bucket of the universe boundary is 0
    · have hbucket : v.univSize >>> v.lowWidth = 0 := by
        rw [hj, Nat.shiftRight_eq_div_pow]
        exact Nat.div_eq_of_lt (Nat.pow_lt_pow_right (by norm_num) hw)
      have : 1 ≤ zeroMarkersMin v.univSize v.lowWidth := by
        unfold zeroMarkersMin
        exact Nat.succ_le_succ (Nat.zero_le _)
      omega

/-- Claim C8: for every well-formed non-empty sparse vector and every query value `x`
at or beyond the largest set bit — including `x` equal to the universe size `U` when
`U` is an exact power of two — a predecessor-mode iterator lands on the largest set
bit: the result is not the end state, its dereference is the last set-bit position and
its rank is `size() - 1`.  This relies on the encoding reserving a zero-marker beyond
the theoretical minimum at power-of-two boundaries (part of `SDVector.WF`). -/
theorem sd_predecessor_at_or_beyond_last (v : SDVector) (hwf : v.WF)
    (hne : v.values ≠ []) {x : Nat} (hx : v.values.getLast hne ≤ x)
    (hxu : x < v.univSize ∨ (x = v.univSize ∧ ∃ j, v.univSize = 2 ^ j)) :
    sdPredecessor v x = some (v.values.getLast hne, v.values.length - 1) := by
  rw [sdPredecessor, if_pos (bucket_lt_zeroMarkers v hwf hxu)]
  have h := predScan_all_le hne
    (fun a ha => le_trans (chain_lt_le_getLast hwf.1 hne a ha) hx) 0
  simpa using h

/-! ## CachedGBWT record cache (src/cached_gbwt.cpp)

The cache state consists of the open-addressed slot table `cache_index`
(`std::vector<edge_type>`) and the record list `cached_records`.  A `Record` is an
opaque decoded value fetched once per node from the immutable external index
(`this->index.record(node)`), so the record list is modelled by the list of the nodes
whose records were fetched, in fetch order; the number of `record(n)` fetches for a
node `n` over the cache's lifetime is then the number of occurrences of `n` in
`cachedRecords`.

The hash function `wang_hash_64` lives in the missing header `gbwt/utils.h`; the spec
only calls it "a fast integer hash of `node`" (§4.1), so the model is parametric in a
hash `h : Nat → Nat`.  All invariant theorems hold for every `h`.

`MAX_LOAD_FACTOR` is the `double` constant 0.77 (spec §3).  The comparison
`cacheSize() > MAX_LOAD_FACTOR * cacheCapacity()` is modelled exactly as the rational
comparison `100 * size > 77 * capacity`; the IEEE-754 double nearest to 0.77 exceeds
0.77 by less than 2⁻⁵⁵, so the two integer comparisons agree for every capacity below
2⁵⁵, far beyond any constructible table. -/

/-- One quadratic-probing stride sum: `stepSum attempt d` is the total offset advance
after `d` further probe steps starting at probe counter `attempt`
(src/cached_gbwt.cpp:119 advances by `attempt + 1` each step). -/
def stepSum (attempt : Nat) : Nat → Nat
  | 0 => 0
  | d + 1 => stepSum attempt d + (attempt + d + 1)

/-- The probe loop of `CachedGBWT::indexOffset` (src/cached_gbwt.cpp:114-120).  The
loop runs for at most `cacheCapacity()` attempts (the fuel); a slot stops the probe
when its stored node is `>= cacheSize()` or equals the probed node (line 116 — note:
the *node* field `.first` is compared against `cacheSize()`, exactly as in the source).
`none` models the exhaustion branch (line 122-124: diagnostic on `std::cerr`, return
`invalid_offset()`). -/
def probeGo (table : List Edge) (size node cap : Nat) : Nat → Nat → Nat → Option Nat
  | offset, _, 0 => none
  | offset, attempt, fuel + 1 =>
    if size ≤ (table.getD offset invalidEdge).1 ∨ (table.getD offset invalidEdge).1 = node
    then some offset
    else probeGo table size node cap ((offset + attempt + 1) &&& (cap - 1)) (attempt + 1) fuel

/-- `CachedGBWT::indexOffset` (src/cached_gbwt.cpp:110-125), as a function of the slot
table and the current record count.  The initial offset is
`wang_hash_64(node) & (cacheCapacity() - 1)` (line 113). -/
def indexOffsetT (h : Nat → Nat) (table : List Edge) (size node : Nat) : Option Nat :=
  probeGo table size node table.length (h node &&& (table.length - 1)) 0 table.length

/-- The cache state of `CachedGBWT`: slot table and record list.  See the section
comment for why `cachedRecords` stores the fetched nodes. -/
structure CachedGBWT where
  cacheIndex : List Edge
  cachedRecords : List Nat
deriving DecidableEq

/-- The record count `cacheSize()`. -/
def CachedGBWT.size (s : CachedGBWT) : Nat := s.cachedRecords.length

/-- The slot-table capacity `cacheCapacity()`. -/
def CachedGBWT.capacity (s : CachedGBWT) : Nat := s.cacheIndex.length

/-- The probe stop condition of src/cached_gbwt.cpp:116 at a given slot, as a
proposition. -/
def probeStop (table : List Edge) (size node offset : Nat) : Prop :=
  size ≤ (table.getD offset invalidEdge).1 ∨ (table.getD offset invalidEdge).1 = node

/-- `CachedGBWT::rehash`'s reinsertion loop (src/cached_gbwt.cpp:132-137): walk the old
table, skip slots whose stored offset is `>= cacheSize()` (line 134, `.second`),
reinsert the rest at `indexOffset` recomputed against the new table. -/
def reinsertLoop (h : Nat → Nat) (size : Nat) : List Edge → List Edge → List Edge
  | [], new => new
  | e :: rest, new =>
    if size ≤ e.2 then reinsertLoop h size rest new
    else reinsertLoop h size rest
      (new.set ((indexOffsetT h new size e.1).getD invalidNat) e)

/-- `CachedGBWT::rehash` (src/cached_gbwt.cpp:127-138): swap in a fresh table of twice
the capacity, reinsert the valid old slots.  The record list is untouched. -/
def rehash (h : Nat → Nat) (s : CachedGBWT) : CachedGBWT :=
  ⟨reinsertLoop h s.cachedRecords.length s.cacheIndex
    (List.replicate (2 * s.cacheIndex.length) invalidEdge), s.cachedRecords⟩

/-- `CachedGBWT::findRecord` (src/cached_gbwt.cpp:62-74).  Returns the updated cache
and the returned record-list offset.  On a miss the slot is overwritten with
`(node, cacheSize())`, the record is fetched and appended, and the table is rehashed
when the load factor is exceeded.  If `indexOffset` exhausted its probes the C++ code
indexes `cache_index` with `invalid_offset()` (undefined behaviour); the model's total
`getD`/`set` read the sentinel and drop the write there — the exhaustion branch is
proved unreachable from reachable states in `indexOffset_no_exhaustion`. -/
def findRecord (h : Nat → Nat) (s : CachedGBWT) (node : Nat) : CachedGBWT × Nat :=
  let io := (indexOffsetT h s.cacheIndex s.cachedRecords.length node).getD invalidNat
  let e := s.cacheIndex.getD io invalidEdge
  if e.1 = node then (s, e.2)
  else
    let s1 : CachedGBWT :=
      ⟨s.cacheIndex.set io (node, s.cachedRecords.length), s.cachedRecords ++ [node]⟩
    let s2 := if 100 * s1.cachedRecords.length > 77 * s1.cacheIndex.length
      then rehash h s1 else s1
    (s2, s2.cachedRecords.length - 1)

/-- `CachedGBWT::clearCache` (src/cached_gbwt.cpp:52-60): every slot reset to
`invalid_edge()`, record list emptied, capacity kept. -/
def clearCache (s : CachedGBWT) : CachedGBWT :=
  ⟨List.replicate s.cacheIndex.length invalidEdge, []⟩

/-- The constructor (src/cached_gbwt.cpp:40-44): a table of `SINGLE_CAPACITY` or
`INITIAL_CAPACITY` slots, all `invalid_edge()`, and an empty record list.  Modelled
from the spec: the two constants live in the missing `gbwt/cached_gbwt.h`; the spec
(§4.1) requires both to be powers of two, so `initCache` is analysed at an arbitrary
power-of-two capacity. -/
def initCache (cap : Nat) : CachedGBWT :=
  ⟨List.replicate cap invalidEdge, []⟩

/-- Cache states reachable by the public operations, for a fixed hash `h`:
construction at a power-of-two capacity, `findRecord` (which may rehash), and
`clearCache`. -/
inductive Reachable (h : Nat → Nat) : CachedGBWT → Prop
  | init (k : Nat) : Reachable h (initCache (2 ^ k))
  | find (s : CachedGBWT) (node : Nat) : Reachable h s → Reachable h (findRecord h s node).1
  | clear (s : CachedGBWT) : Reachable h s → Reachable h (clearCache s)

/-- Modelled from the spec: a concrete instance of the "fast integer hash" parameter
(the repository's `wang_hash_64` is in the missing `gbwt/utils.h`), used to evaluate
the model on concrete inputs.  The behaviours demonstrated with it depend only on two
nodes hashing to the same base slot, which every hash into a finite table exhibits. -/
def idHash : Nat → Nat := fun n => n

/-! ### Quadratic probing visits every slot of a power-of-two table -/

theorem stepSum_shift (attempt : Nat) : ∀ d : Nat,
    stepSum attempt (d + 1) = (attempt + 1) + stepSum (attempt + 1) d := by
  intro d
  induction d with
  | zero => simp [stepSum]
  | succ d ih =>
    show stepSum attempt (d + 1) + (attempt + (d + 1) + 1) = _
    rw [ih]
    show _ = (attempt + 1) + (stepSum (attempt + 1) d + (attempt + 1 + d + 1))
    omega

theorem two_mul_stepSum_zero : ∀ d : Nat, 2 * stepSum 0 d = d * (d + 1) := by
  intro d
  induction d with
  | zero => simp [stepSum]
  | succ d ih =>
    show 2 * (stepSum 0 d + (0 + d + 1)) = (d + 1) * (d + 2)
    have : (d + 1) * (d + 2) = d * (d + 1) + 2 * (d + 1) := by ring
    omega

theorem stepSum_zero_mono {a b : Nat} (hab : a ≤ b) : stepSum 0 a ≤ stepSum 0 b := by
  induction b with
  | zero => simpa [Nat.le_zero.mp hab]
  | succ b ih =>
    rcases Nat.lt_or_ge a (b + 1) with hlt | hge
    · refine le_trans (ih (by omega)) ?_
      show stepSum 0 b ≤ stepSum 0 b + (0 + b + 1)
      omega
    · have : a = b + 1 := by omega
      simp [this]

theorem stepSum_zero_mod_inj_aux {k a b : Nat} (hab : a ≤ b) (ha : a < 2 ^ k)
    (hb : b < 2 ^ k) (hmod : stepSum 0 a % 2 ^ k = stepSum 0 b % 2 ^ k) : a = b := by
  have hmono : stepSum 0 a ≤ stepSum 0 b := stepSum_zero_mono hab
  have hdvd : 2 ^ k ∣ stepSum 0 b - stepSum 0 a :=
    (Nat.modEq_iff_dvd' hmono).mp hmod
  have hdvd2 : 2 ^ (k + 1) ∣ 2 * (stepSum 0 b - stepSum 0 a) := by
    rw [pow_succ, Nat.mul_comm (2 ^ k) 2]
    exact Nat.mul_dvd_mul_left 2 hdvd
  have hfact : 2 * (stepSum 0 b - stepSum 0 a) = (b - a) * (a + b + 1) := by
    have h2a := two_mul_stepSum_zero a
    have h2b := two_mul_stepSum_zero b
    have hmul : a * (a + 1) ≤ b * (b + 1) :=
      Nat.mul_le_mul hab (by omega)
    zify [hmono, hab]
    zify [hmul] at h2a h2b ⊢
    nlinarith [h2a, h2b]
  rw [hfact] at hdvd2
  rcases Nat.even_or_odd (b - a) with heven | hodd
  · -- b - a even, so a + b + 1 is odd and coprime to the power of two
    have hoddsum : Odd (a + b + 1) := by
      rcases heven with ⟨c, hc⟩
      rcases Nat.even_or_odd (a + b + 1) with hev | hodd
      · rcases hev with ⟨d, hd⟩
        omega
      · exact hodd
    have hco : Nat.Coprime (2 ^ (k + 1)) (a + b + 1) :=
      Nat.Coprime.pow_left _ (Nat.coprime_two_left.mpr hoddsum)
    have hdvdba : 2 ^ (k + 1) ∣ b - a := hco.dvd_of_dvd_mul_right hdvd2
    rcases Nat.eq_zero_or_pos (b - a) with hz | hpos
    · omega
    · have := Nat.le_of_dvd hpos hdvdba
      have hlt : b - a < 2 ^ (k + 1) := by
        have : (2 : Nat) ^ k ≤ 2 ^ (k + 1) := Nat.pow_le_pow_right (by norm_num) (by omega)
        omega
      omega
  · -- b - a odd, so the power of two must divide a + b + 1, which is too small
    have hco : Nat.Coprime (2 ^ (k + 1)) (b - a) :=
      Nat.Coprime.pow_left _ (Nat.coprime_two_left.mpr hodd)
    have hdvdsum : 2 ^ (k + 1) ∣ a + b + 1 := hco.dvd_of_dvd_mul_left hdvd2
    have hpos : 0 < a + b + 1 := by omega
    have hge := Nat.le_of_dvd hpos hdvdsum
    have hlt : a + b + 1 < 2 ^ (k + 1) := by
      have h2 : (2 : Nat) ^ (k + 1) = 2 ^ k + 2 ^ k := by
        rw [pow_succ]; omega
      omega
    omega

theorem stepSum_zero_mod_inj {k a b : Nat} (ha : a < 2 ^ k) (hb : b < 2 ^ k)
    (hmod : stepSum 0 a % 2 ^ k = stepSum 0 b % 2 ^ k) : a = b := by
  rcases Nat.le_total a b with hab | hab
  · exact stepSum_zero_mod_inj_aux hab ha hb hmod
  · exact (stepSum_zero_mod_inj_aux hab hb ha hmod.symm).symm

theorem probe_visits_all {k base r : Nat} (hr : r < 2 ^ k) :
    ∃ d, d < 2 ^ k ∧ (base + stepSum 0 d) % 2 ^ k = r := by
  have hpos : 0 < 2 ^ k := Nat.pos_pow_of_pos _ (by norm_num)
  let f : Fin (2 ^ k) → Fin (2 ^ k) :=
    fun d => ⟨(base + stepSum 0 d.1) % 2 ^ k, Nat.mod_lt _ hpos⟩
  have hinj : Function.Injective f := by
    intro d1 d2 hf
    have hval : (base + stepSum 0 d1.1) % 2 ^ k = (base + stepSum 0 d2.1) % 2 ^ k :=
      congrArg Fin.val hf
    have hcan : stepSum 0 d1.1 % 2 ^ k = stepSum 0 d2.1 % 2 ^ k :=
      Nat.ModEq.add_left_cancel' base hval
    exact Fin.ext (stepSum_zero_mod_inj d1.2 d2.2 hcan)
  have hsurj : Function.Surjective f := Finite.injective_iff_surjective.mp hinj
  obtain ⟨d, hd⟩ := hsurj ⟨r, hr⟩
  exact ⟨d.1, d.2, congrArg Fin.val hd⟩

/-! ### Probe-loop lemmas -/

theorem getD_mem {l : List Edge} {i : Nat} (hi : i < l.length) :
    l.getD i invalidEdge ∈ l := by
  rw [List.getD_eq_getElem?_getD, List.getElem?_eq_getElem hi]
  exact List.getElem_mem hi

theorem probeStop_iff {table : List Edge} {size node offset : Nat} :
    probeStop table size node offset ↔
      size ≤ (table.getD offset invalidEdge).1 ∨ (table.getD offset invalidEdge).1 = node :=
  Iff.rfl

theorem probeGo_found {table : List Edge} {size node k : Nat} :
    ∀ (fuel attempt offset : Nat), offset < 2 ^ k →
    (∃ d, d < fuel ∧ probeStop table size node ((offset + stepSum attempt d) % 2 ^ k)) →
    ∃ r, probeGo table size node (2 ^ k) offset attempt fuel = some r ∧
      r < 2 ^ k ∧ probeStop table size node r := by
  intro fuel
  induction fuel with
  | zero =>
    intro attempt offset _ hex
    obtain ⟨d, hd, -⟩ := hex
    omega
  | succ fuel ih =>
    intro attempt offset hoff hex
    by_cases hC : size ≤ (table.getD offset invalidEdge).1 ∨
        (table.getD offset invalidEdge).1 = node
    · exact ⟨offset, by simp only [probeGo]; rw [if_pos hC], hoff, hC⟩
    · obtain ⟨d, hd, hstop⟩ := hex
      cases d with
      | zero =>
        rw [show stepSum attempt 0 = 0 from rfl, Nat.add_zero,
          Nat.mod_eq_of_lt hoff] at hstop
        exact absurd hstop hC
      | succ d' =>
        have hmask : (offset + attempt + 1) &&& (2 ^ k - 1) =
            (offset + attempt + 1) % 2 ^ k := Nat.and_pow_two_sub_one_eq_mod _ _
        have hoff' : (offset + attempt + 1) % 2 ^ k < 2 ^ k :=
          Nat.mod_lt _ (Nat.pos_pow_of_pos _ (by norm_num))
        have hvisit : ((offset + attempt + 1) % 2 ^ k + stepSum (attempt + 1) d') % 2 ^ k =
            (offset + stepSum attempt (d' + 1)) % 2 ^ k := by
          rw [Nat.mod_add_mod, stepSum_shift]
          congr 1
          omega
        have hex' : ∃ d, d < fuel ∧ probeStop table size node
            (((offset + attempt + 1) % 2 ^ k + stepSum (attempt + 1) d) % 2 ^ k) :=
          ⟨d', by omega, by rw [hvisit]; exact hstop⟩
        obtain ⟨r, hr, hrlt, hrstop⟩ := ih (attempt + 1) _ hoff' hex'
        refine ⟨r, ?_, hrlt, hrstop⟩
        simp only [probeGo, if_neg hC]
        rw [hmask]
        exact hr

theorem probeGo_shape {table : List Edge} {size node cap : Nat} :
    ∀ (fuel attempt offset : Nat), offset < cap →
    probeGo table size node cap offset attempt fuel = none ∨
    ∃ r, probeGo table size node cap offset attempt fuel = some r ∧ r < cap ∧
      probeStop table size node r := by
  intro fuel
  induction fuel with
  | zero => intro attempt offset _; exact Or.inl rfl
  | succ fuel ih =>
    intro attempt offset hoff
    by_cases hC : size ≤ (table.getD offset invalidEdge).1 ∨
        (table.getD offset invalidEdge).1 = node
    · exact Or.inr ⟨offset, by simp only [probeGo]; rw [if_pos hC], hoff, hC⟩
    · have hcap : 1 ≤ cap := by omega
      have hoff' : (offset + attempt + 1) &&& (cap - 1) < cap :=
        lt_of_le_of_lt (Nat.and_le_right) (by omega)
      rcases ih (attempt + 1) _ hoff' with hnone | hsome
      · exact Or.inl (by simp only [probeGo, if_neg hC]; exact hnone)
      · obtain ⟨r, hr, hrlt, hrstop⟩ := hsome
        exact Or.inr ⟨r, by simp only [probeGo, if_neg hC]; exact hr, hrlt, hrstop⟩

theorem indexOffsetT_shape (h : Nat → Nat) (table : List Edge) (size node : Nat) :
    indexOffsetT h table size node = none ∨
    ∃ r, indexOffsetT h table size node = some r ∧ r < table.length ∧
      probeStop table size node r := by
  rcases Nat.eq_zero_or_pos table.length with hz | hpos
  · left
    rw [indexOffsetT, hz]
    rfl
  · have hoff : h node &&& (table.length - 1) < table.length :=
      lt_of_le_of_lt (Nat.and_le_right) (by omega)
    exact probeGo_shape table.length 0 _ hoff

/-! ### Slot counting: occupied slots are bounded by the record count -/

/-- Positional pairwise distinctness of the stored record offsets among the
non-sentinel slots of a table. -/
def PairwiseDistinctOffsets (l : List Edge) : Prop :=
  ∀ i j, i < l.length → j < l.length → i ≠ j →
    l.getD i invalidEdge ≠ invalidEdge → l.getD j invalidEdge ≠ invalidEdge →
    (l.getD i invalidEdge).2 ≠ (l.getD j invalidEdge).2

/-- The number of non-sentinel (occupied) slots of a table. -/
def occupiedSlots (l : List Edge) : Nat :=
  ((Finset.range l.length).filter (fun i => l.getD i invalidEdge ≠ invalidEdge)).card

theorem occupiedSlots_le {l : List Edge} {m : Nat}
    (hP : PairwiseDistinctOffsets l)
    (hV : ∀ e ∈ l, e = invalidEdge ∨ e.2 < m) : occupiedSlots l ≤ m := by
  have hmaps : ∀ i ∈ (Finset.range l.length).filter
      (fun i => l.getD i invalidEdge ≠ invalidEdge),
      (l.getD i invalidEdge).2 ∈ Finset.range m := by
    intro i hi
    rw [Finset.mem_filter, Finset.mem_range] at hi
    rcases hV _ (getD_mem hi.1) with hinv | hlt
    · exact absurd hinv hi.2
    · exact Finset.mem_range.mpr hlt
  have hinj : Set.InjOn (fun i => (l.getD i invalidEdge).2)
      ((Finset.range l.length).filter (fun i => l.getD i invalidEdge ≠ invalidEdge)) := by
    intro i hi j hj hij
    rw [Finset.coe_filter, Set.mem_setOf_eq, Finset.mem_range] at hi hj
    by_contra hne
    exact hP i j hi.1 hj.1 hne hi.2 hj.2 hij
  have := Finset.card_le_card_of_injOn _ hmaps hinj
  simpa [occupiedSlots] using this

theorem exists_sentinel_slot {l : List Edge} {m : Nat}
    (hP : PairwiseDistinctOffsets l)
    (hV : ∀ e ∈ l, e = invalidEdge ∨ e.2 < m) (hlt : m < l.length) :
    ∃ t, t < l.length ∧ l.getD t invalidEdge = invalidEdge := by
  have hcard : ((Finset.range l.length).filter
      (fun i => l.getD i invalidEdge ≠ invalidEdge)).card < (Finset.range l.length).card := by
    have h1 := occupiedSlots_le hP hV
    rw [occupiedSlots] at h1
    rw [Finset.card_range]
    omega
  by_contra hcon
  push_neg at hcon
  have hall : (Finset.range l.length).filter
      (fun i => l.getD i invalidEdge ≠ invalidEdge) = Finset.range l.length := by
    apply Finset.filter_true_of_mem
    intro i hi
    exact hcon i (Finset.mem_range.mp hi)
  rw [hall] at hcard
  exact lt_irrefl _ hcard

/-! ### Table-update lemmas -/

theorem getD_set_self {l : List Edge} {io : Nat} (hio : io < l.length) (v : Edge) :
    (l.set io v).getD io invalidEdge = v := by
  simp [List.getD_eq_getElem?_getD, List.getElem?_set_self hio]

theorem getD_set_ne {l : List Edge} {io j : Nat} (hij : io ≠ j) (v : Edge) :
    (l.set io v).getD j invalidEdge = l.getD j invalidEdge := by
  simp [List.getD_eq_getElem?_getD, List.getElem?_set_ne hij]

theorem pairwiseDistinct_tail {x : Edge} {l : List Edge}
    (hP : PairwiseDistinctOffsets (x :: l)) : PairwiseDistinctOffsets l := by
  intro i j hi hj hij hi' hj'
  have h := hP (i + 1) (j + 1) (by simpa using Nat.succ_lt_succ hi)
    (by simpa using Nat.succ_lt_succ hj) (by omega)
  simp only [List.getD_cons_succ] at h
  exact h hi' hj'

theorem pairwiseDistinct_set {l : List Edge} (hP : PairwiseDistinctOffsets l)
    {io : Nat} {v : Edge}
    (hv : v ≠ invalidEdge → ∀ j, j < l.length → j ≠ io →
      l.getD j invalidEdge ≠ invalidEdge → v.2 ≠ (l.getD j invalidEdge).2) :
    PairwiseDistinctOffsets (l.set io v) := by
  intro i j hi hj hij hi' hj'
  rw [List.length_set] at hi hj
  by_cases hio : io < l.length
  · by_cases hiio : i = io
    · subst hiio
      rw [getD_set_self hio] at hi' ⊢
      have hjne : i ≠ j := hij
      rw [getD_set_ne (fun hc => hjne hc) v] at hj' ⊢
      exact hv hi' j hj (fun hc => hjne hc.symm) hj'
    · rw [getD_set_ne (fun hc => hiio hc.symm) v] at hi' ⊢
      by_cases hjio : j = io
      · subst hjio
        rw [getD_set_self hio] at hj' ⊢
        exact fun hc => (hv hj' i hi (fun hc2 => hiio hc2) hi') hc.symm
      · rw [getD_set_ne (fun hc => hjio hc.symm) v] at hj' ⊢
        exact hP i j hi hj hij hi' hj'
  · have hset : l.set io v = l := List.set_eq_of_length_le (le_of_not_lt hio)
    rw [hset] at hi' hj' ⊢
    exact hP i j hi hj hij hi' hj'

/-! ### The reinsertion loop of `rehash` -/

theorem reinsertLoop_length (h : Nat → Nat) (size : Nat) :
    ∀ (todo new : List Edge), (reinsertLoop h size todo new).length = new.length := by
  intro todo
  induction todo with
  | nil => intro new; rfl
  | cons e rest ih =>
    intro new
    by_cases he : size ≤ e.2
    · simp only [reinsertLoop, if_pos he]
      exact ih new
    · simp only [reinsertLoop, if_neg he]
      rw [ih, List.length_set]

theorem reinsertLoop_inv (h : Nat → Nat) (size : Nat) :
    ∀ (todo new : List Edge),
    PairwiseDistinctOffsets new →
    (∀ e ∈ new, e = invalidEdge ∨ e.2 < size) →
    PairwiseDistinctOffsets todo →
    (∀ e ∈ new, e ≠ invalidEdge → ∀ i, i < todo.length →
      todo.getD i invalidEdge ≠ invalidEdge → e.2 ≠ (todo.getD i invalidEdge).2) →
    PairwiseDistinctOffsets (reinsertLoop h size todo new) ∧
    (∀ e ∈ reinsertLoop h size todo new, e = invalidEdge ∨ e.2 < size) ∧
    (∀ e ∈ reinsertLoop h size todo new, e ≠ invalidEdge → e ∈ new ∨ e ∈ todo) := by
  intro todo
  induction todo with
  | nil =>
    intro new hPnew hVnew _ _
    exact ⟨hPnew, hVnew, fun e he _ => Or.inl he⟩
  | cons e rest ih =>
    intro new hPnew hVnew hPtodo hcross
    have hPrest : PairwiseDistinctOffsets rest := pairwiseDistinct_tail hPtodo
    by_cases he : size ≤ e.2
    · -- skipped entry
      simp only [reinsertLoop, if_pos he]
      have hcross' : ∀ e' ∈ new, e' ≠ invalidEdge → ∀ i, i < rest.length →
          rest.getD i invalidEdge ≠ invalidEdge → e'.2 ≠ (rest.getD i invalidEdge).2 := by
        intro e' he' hne i hi hi'
        have h2 := hcross e' he' hne (i + 1) (by simpa using Nat.succ_lt_succ hi)
        rw [List.getD_cons_succ] at h2
        exact h2 hi'
      obtain ⟨hP, hV, hM⟩ := ih new hPnew hVnew hPrest hcross'
      exact ⟨hP, hV, fun e' he' hne => (hM e' he' hne).imp id (List.mem_cons_of_mem e)⟩
    · -- reinserted entry
      simp only [reinsertLoop, if_neg he]
      set io := (indexOffsetT h new size e.1).getD invalidNat with hio
      have hPnew' : PairwiseDistinctOffsets (new.set io e) := by
        refine pairwiseDistinct_set hPnew ?_
        intro hene j hj hjio hj'
        have h0 := hcross (new.getD j invalidEdge) (getD_mem hj) hj' 0 (by simp)
        rw [List.getD_cons_zero] at h0
        exact fun hc => (h0 hene) hc.symm
      have hVnew' : ∀ e' ∈ new.set io e, e' = invalidEdge ∨ e'.2 < size := by
        intro e' he'
        rcases List.mem_or_eq_of_mem_set he' with hmem | heq
        · exact hVnew e' hmem
        · exact Or.inr (heq ▸ (by omega))
      have hcross' : ∀ e' ∈ new.set io e, e' ≠ invalidEdge → ∀ i, i < rest.length →
          rest.getD i invalidEdge ≠ invalidEdge → e'.2 ≠ (rest.getD i invalidEdge).2 := by
        intro e' he' hne i hi hi'
        rcases List.mem_or_eq_of_mem_set he' with hmem | heq
        · have h2 := hcross e' hmem hne (i + 1) (by simpa using Nat.succ_lt_succ hi)
          rw [List.getD_cons_succ] at h2
          exact h2 hi'
        · subst heq
          have := hPtodo 0 (i + 1) (by simp) (by simpa using Nat.succ_lt_succ hi)
            (by omega)
          simp only [List.getD_cons_zero, List.getD_cons_succ] at this
          exact this hne hi'
      obtain ⟨hP, hV, hM⟩ := ih (new.set io e) hPnew' hVnew' hPrest hcross'
      refine ⟨hP, hV, fun e' he' hne => ?_⟩
      rcases hM e' he' hne with hmem | hmem
      · rcases List.mem_or_eq_of_mem_set hmem with hmem2 | heq
        · exact Or.inl hmem2
        · exact Or.inr (heq ▸ List.mem_cons_self e rest)
      · exact Or.inr (List.mem_cons_of_mem e hmem)

/-! ### The cache invariant and its preservation -/

/-- The internal invariant of the record cache: power-of-two capacity, load factor at
most `MAX_LOAD_FACTOR = 0.77`, every slot sentinel or pointing below the record count,
and pairwise-distinct stored offsets among occupied slots. -/
def Inv (s : CachedGBWT) : Prop :=
  (∃ k, s.cacheIndex.length = 2 ^ k) ∧
  100 * s.cachedRecords.length ≤ 77 * s.cacheIndex.length ∧
  (∀ e ∈ s.cacheIndex, e = invalidEdge ∨ e.2 < s.cachedRecords.length) ∧
  PairwiseDistinctOffsets s.cacheIndex

theorem pairwiseDistinct_replicate (n : Nat) :
    PairwiseDistinctOffsets (List.replicate n invalidEdge) := by
  intro i j hi hj hij hi' hj'
  rw [List.length_replicate] at hi
  exact absurd (by
    rw [List.getD_eq_getElem?_getD, List.getElem?_eq_getElem (by simpa using hi)]
    simp [List.getElem_replicate]) hi'

theorem inv_initCache (k : Nat) : Inv (initCache (2 ^ k)) := by
  refine ⟨⟨k, by simp [initCache]⟩, by simp [initCache], ?_, ?_⟩
  · intro e he
    exact Or.inl (List.eq_of_mem_replicate he)
  · exact pairwiseDistinct_replicate _

theorem inv_clearCache {s : CachedGBWT} (hs : Inv s) : Inv (clearCache s) := by
  obtain ⟨⟨k, hk⟩, -, -, -⟩ := hs
  refine ⟨⟨k, by simpa [clearCache] using hk⟩, by simp [clearCache], ?_, ?_⟩
  · intro e he
    exact Or.inl (List.eq_of_mem_replicate he)
  · exact pairwiseDistinct_replicate _

theorem reinsertLoop_mem (h : Nat → Nat) (size : Nat) :
    ∀ (todo new : List Edge), ∀ e ∈ reinsertLoop h size todo new, e ∈ new ∨ e ∈ todo := by
  intro todo
  induction todo with
  | nil => intro new e he; exact Or.inl he
  | cons x rest ih =>
    intro new e he
    by_cases hx : size ≤ x.2
    · rw [reinsertLoop, if_pos hx] at he
      exact (ih new e he).imp id (List.mem_cons_of_mem x)
    · rw [reinsertLoop, if_neg hx] at he
      rcases ih _ e he with hmem | hmem
      · rcases List.mem_or_eq_of_mem_set hmem with hmem2 | heq
        · exact Or.inl hmem2
        · exact Or.inr (heq ▸ List.mem_cons_self x rest)
      · exact Or.inr (List.mem_cons_of_mem x hmem)

/-- Frame and structure of `rehash`: the capacity doubles, the record list is
untouched, and every occupied slot of the new table carries an unchanged
`(node, offset)` pair from the old table. -/
theorem rehash_frame (h : Nat → Nat) (s : CachedGBWT) :
    (rehash h s).cacheIndex.length = 2 * s.cacheIndex.length ∧
    (rehash h s).cachedRecords = s.cachedRecords ∧
    (∀ e ∈ (rehash h s).cacheIndex, e = invalidEdge ∨ e ∈ s.cacheIndex) := by
  refine ⟨?_, rfl, ?_⟩
  · rw [rehash]
    show (reinsertLoop h _ _ _).length = _
    rw [reinsertLoop_length, List.length_replicate]
  · intro e he
    rcases reinsertLoop_mem h s.cachedRecords.length s.cacheIndex _ e he with hmem | hmem
    · exact Or.inl (List.eq_of_mem_replicate hmem)
    · exact Or.inr hmem

theorem rehash_inv (h : Nat → Nat) {s : CachedGBWT}
    (hP : PairwiseDistinctOffsets s.cacheIndex)
    (hV : ∀ e ∈ s.cacheIndex, e = invalidEdge ∨ e.2 < s.cachedRecords.length) :
    PairwiseDistinctOffsets (rehash h s).cacheIndex ∧
    (∀ e ∈ (rehash h s).cacheIndex, e = invalidEdge ∨ e.2 < s.cachedRecords.length) := by
  have hrepl : ∀ e ∈ List.replicate (2 * s.cacheIndex.length) invalidEdge,
      e = invalidEdge ∨ e.2 < s.cachedRecords.length :=
    fun e he => Or.inl (List.eq_of_mem_replicate he)
  have hcross : ∀ e ∈ List.replicate (2 * s.cacheIndex.length) invalidEdge,
      e ≠ invalidEdge → ∀ i, i < s.cacheIndex.length →
      s.cacheIndex.getD i invalidEdge ≠ invalidEdge →
      e.2 ≠ (s.cacheIndex.getD i invalidEdge).2 := by
    intro e he hne
    exact absurd (List.eq_of_mem_replicate he) hne
  obtain ⟨hPr, hVr, -⟩ := reinsertLoop_inv h s.cachedRecords.length s.cacheIndex
    (List.replicate (2 * s.cacheIndex.length) invalidEdge)
    (pairwiseDistinct_replicate _) hrepl hP hcross
  exact ⟨hPr, hVr⟩

theorem inv_findRecord (h : Nat → Nat) {s : CachedGBWT} (hs : Inv s) (node : Nat) :
    Inv (findRecord h s node).1 := by
  obtain ⟨⟨k, hk⟩, h2, h3, h4⟩ := hs
  by_cases hhit : (s.cacheIndex.getD
      ((indexOffsetT h s.cacheIndex s.cachedRecords.length node).getD invalidNat)
      invalidEdge).1 = node
  · have : (findRecord h s node).1 = s := by
      rw [findRecord, if_pos hhit]
    rw [this]
    exact ⟨⟨k, hk⟩, h2, h3, h4⟩
  · set io := (indexOffsetT h s.cacheIndex s.cachedRecords.length node).getD invalidNat
      with hiodef
    set s1 : CachedGBWT :=
      ⟨s.cacheIndex.set io (node, s.cachedRecords.length), s.cachedRecords ++ [node]⟩
      with hs1def
    have hs1len : s1.cachedRecords.length = s.cachedRecords.length + 1 := by
      simp [hs1def]
    have hs1cap : s1.cacheIndex.length = s.cacheIndex.length := by
      simp [hs1def]
    have h3' : ∀ e ∈ s1.cacheIndex, e = invalidEdge ∨ e.2 < s1.cachedRecords.length := by
      intro e he
      rw [hs1len]
      rcases List.mem_or_eq_of_mem_set he with hmem | heq
      · rcases h3 e hmem with hinv | hlt
        · exact Or.inl hinv
        · exact Or.inr (by omega)
      · exact Or.inr (by rw [heq]; omega)
    have h4' : PairwiseDistinctOffsets s1.cacheIndex := by
      refine pairwiseDistinct_set h4 ?_
      intro _ j hj hjio hj'
      rcases h3 _ (getD_mem hj) with hinv | hlt
      · exact absurd hinv hj'
      · exact fun hc => absurd hc.symm (Nat.ne_of_lt hlt)
    by_cases hload : 100 * s1.cachedRecords.length > 77 * s1.cacheIndex.length
    · have hres : (findRecord h s node).1 = rehash h s1 := by
        rw [findRecord, if_neg hhit]
        simp only [← hiodef, ← hs1def, if_pos hload]
      rw [hres]
      obtain ⟨hPr, hVr⟩ := rehash_inv h h4' h3'
      obtain ⟨hlen, hrec, -⟩ := rehash_frame h s1
      refine ⟨⟨k + 1, by rw [hlen, hs1cap, hk, pow_succ]; ring⟩, ?_, ?_, hPr⟩
      · rw [hlen, hrec, hs1len, hs1cap, hk]
        rcases Nat.eq_zero_or_pos k with hz | hpos
        · subst hz
          simp only [pow_zero] at hk ⊢
          rw [hk] at h2
          omega
        · have hcap2 : (2 : Nat) ≤ 2 ^ k := by
            calc (2 : Nat) = 2 ^ 1 := by norm_num
            _ ≤ 2 ^ k := Nat.pow_le_pow_right (by norm_num) hpos
          rw [hk] at h2
          omega
      · rw [hrec]
        exact hVr
    · have hres : (findRecord h s node).1 = s1 := by
        rw [findRecord, if_neg hhit]
        simp only [← hiodef, ← hs1def, if_neg hload]
      rw [hres]
      refine ⟨⟨k, by rw [hs1cap, hk]⟩, by omega, h3', h4'⟩

/-- Every reachable cache state satisfies the internal invariant. -/
theorem inv_reachable {h : Nat → Nat} {s : CachedGBWT} (hr : Reachable h s) : Inv s := by
  induction hr with
  | init k => exact inv_initCache k
  | find s node _ ih => exact inv_findRecord h ih node
  | clear s _ ih => exact inv_clearCache ih

theorem findRecord_miss (h : Nat → Nat) (s : CachedGBWT) (n : Nat)
    (hhit : ¬ (s.cacheIndex.getD
      ((indexOffsetT h s.cacheIndex s.cachedRecords.length n).getD invalidNat)
      invalidEdge).1 = n) :
    (findRecord h s n).1.cachedRecords = s.cachedRecords ++ [n] ∧
    (findRecord h s n).2 = s.cachedRecords.length := by
  set io := (indexOffsetT h s.cacheIndex s.cachedRecords.length n).getD invalidNat
    with hiodef
  set s1 : CachedGBWT :=
    ⟨s.cacheIndex.set io (n, s.cachedRecords.length), s.cachedRecords ++ [n]⟩
    with hs1def
  have hs1rec : s1.cachedRecords = s.cachedRecords ++ [n] := rfl
  by_cases hload : 100 * s1.cachedRecords.length > 77 * s1.cacheIndex.length
  · have hres : findRecord h s n =
        (rehash h s1, (rehash h s1).cachedRecords.length - 1) := by
      rw [findRecord, if_neg hhit]
      simp only [← hiodef, ← hs1def, if_pos hload]
    rw [hres]
    have hrec : (rehash h s1).cachedRecords = s.cachedRecords ++ [n] := by
      rw [(rehash_frame h s1).2.1, hs1rec]
    refine ⟨hrec, ?_⟩
    show (rehash h s1).cachedRecords.length - 1 = s.cachedRecords.length
    rw [hrec]
    simp
  · have hres : findRecord h s n = (s1, s1.cachedRecords.length - 1) := by
      rw [findRecord, if_neg hhit]
      simp only [← hiodef, ← hs1def, if_neg hload]
    rw [hres]
    refine ⟨hs1rec, ?_⟩
    show s1.cachedRecords.length - 1 = s.cachedRecords.length
    rw [hs1rec]
    simp

/-- Claim C1 (refuted — code bug): querying a node twice with no intervening
`clearCache` can return different record-list offsets and fetch the record twice.
With capacity 2 and two nodes hashing to the same base slot (here nodes 1 and 3 under
a hash for which they collide modulo the capacity; any hash into a finite table has
such collisions), the sequence `findRecord 1; findRecord 3; findRecord 1` returns
offset 0 and then offset 2 for node 1, and the record list `[1, 3, 1]` shows
`record(1)` fetched twice.  Cause: src/cached_gbwt.cpp:116 compares the slot's *node*
field (`.first`) with `cacheSize()` when testing for an empty slot, so the second
insertion treats node 1's occupied slot as empty and overwrites it; the analogous test
in `rehash` (line 134) correctly uses the stored offset (`.second`). -/
theorem findRecord_refetches_after_collision :
    (findRecord idHash (initCache 2) 1).2 = 0 ∧
    (findRecord idHash (findRecord idHash
      (findRecord idHash (initCache 2) 1).1 3).1 1).2 = 2 ∧
    List.count 1 (findRecord idHash (findRecord idHash
      (findRecord idHash (initCache 2) 1).1 3).1 1).1.cachedRecords = 2 := by
  decide

/-- Claim C2: in every reachable cache state whose record count is strictly below the
(power-of-two) capacity, `indexOffset` succeeds within its `cacheCapacity()` probe
attempts — the probe-exhaustion branch is unreachable — and it returns a genuine
stopping slot below the capacity.  Moreover (second conjunct, any state): the result
is either the distinguished `invalid_offset()` produced by the diagnostic exhaustion
branch (`none` in the model), or an in-range slot satisfying the probe stop condition
— never a silently wrong slot.  The hypothesis `cachedRecords.length ≤ invalidNat`
records the 64-bit machine width of `size_type` (a record count cannot exceed
`2^64 - 1`). -/
theorem indexOffset_no_exhaustion (h : Nat → Nat) {s : CachedGBWT}
    (hr : Reachable h s) (n : Nat)
    (hlt : s.cachedRecords.length < s.cacheIndex.length)
    (hsb : s.cachedRecords.length ≤ invalidNat) :
    (∃ r, indexOffsetT h s.cacheIndex s.cachedRecords.length n = some r ∧
      r < s.cacheIndex.length ∧ probeStop s.cacheIndex s.cachedRecords.length n r) ∧
    (∀ (table : List Edge) (size m : Nat),
      indexOffsetT h table size m = none ∨
      ∃ r, indexOffsetT h table size m = some r ∧ r < table.length ∧
        probeStop table size m r) := by
  constructor
  · obtain ⟨⟨k, hk⟩, -, h3, h4⟩ := inv_reachable hr
    obtain ⟨t, ht, htinv⟩ := exists_sentinel_slot h4 h3 hlt
    have hkpos : 0 < (2 : Nat) ^ k := Nat.pos_pow_of_pos _ (by norm_num)
    have hbaselt : h n % 2 ^ k < 2 ^ k := Nat.mod_lt _ hkpos
    obtain ⟨d, hd, hvisit⟩ := @probe_visits_all k (h n % 2 ^ k) t (hk ▸ ht)
    have hstopt : probeStop s.cacheIndex s.cachedRecords.length n t := by
      rw [probeStop_iff, htinv]
      exact Or.inl hsb
    have hex : ∃ d, d < 2 ^ k ∧ probeStop s.cacheIndex s.cachedRecords.length n
        ((h n % 2 ^ k + stepSum 0 d) % 2 ^ k) :=
      ⟨d, hd, by rw [hvisit]; exact hstopt⟩
    obtain ⟨r, hr', hrlt, hrstop⟩ :=
      probeGo_found (2 ^ k) 0 (h n % 2 ^ k) hbaselt hex
    refine ⟨r, ?_, by rw [hk]; exact hrlt, hrstop⟩
    rw [indexOffsetT, hk, Nat.and_pow_two_sub_one_eq_mod]
    exact hr'
  · intro table size m
    exact indexOffsetT_shape h table size m

/-- Claim C3: after every public operation (i.e. in every reachable state), the record
count and the number of occupied slots are both at most `MAX_LOAD_FACTOR = 0.77` times
the capacity, and the capacity is a power of two. -/
theorem load_factor_and_capacity (h : Nat → Nat) {s : CachedGBWT}
    (hr : Reachable h s) :
    100 * s.cachedRecords.length ≤ 77 * s.cacheIndex.length ∧
    100 * occupiedSlots s.cacheIndex ≤ 77 * s.cacheIndex.length ∧
    ∃ k, s.cacheIndex.length = 2 ^ k := by
  obtain ⟨hk, h2, h3, h4⟩ := inv_reachable hr
  have hocc : occupiedSlots s.cacheIndex ≤ s.cachedRecords.length :=
    occupiedSlots_le h4 h3
  exact ⟨h2, by omega, hk⟩

/-- Claim C6: `rehash` exactly doubles the slot-table capacity and modifies only the
slot table — the record list is unchanged, and every occupied slot of the rebuilt
table stores an unchanged `(node, offset)` pair taken from the old table. -/
theorem rehash_doubles_only_slot_table (h : Nat → Nat) (s : CachedGBWT) :
    (rehash h s).cacheIndex.length = 2 * s.cacheIndex.length ∧
    (rehash h s).cachedRecords = s.cachedRecords ∧
    ∀ e ∈ (rehash h s).cacheIndex, e = invalidEdge ∨ e ∈ s.cacheIndex :=
  rehash_frame h s

/-- Claim C10: in every reachable cache state, every slot of the slot table either
holds the `invalid_edge()` sentinel or stores a record-list offset strictly below the
current record-list size; consequently a slot handle returned by `findRecord` for any
genuine node (one distinct from the 64-bit all-ones invalid value) indexes an existing
entry of the cached record list. -/
theorem slots_always_index_records (h : Nat → Nat) {s : CachedGBWT}
    (hr : Reachable h s) :
    (∀ e ∈ s.cacheIndex, e = invalidEdge ∨ e.2 < s.cachedRecords.length) ∧
    (∀ n, n ≠ invalidNat →
      (findRecord h s n).2 < (findRecord h s n).1.cachedRecords.length) := by
  obtain ⟨-, -, h3, -⟩ := inv_reachable hr
  refine ⟨h3, ?_⟩
  intro n hn
  by_cases hhit : (s.cacheIndex.getD
      ((indexOffsetT h s.cacheIndex s.cachedRecords.length n).getD invalidNat)
      invalidEdge).1 = n
  · have heq : findRecord h s n = (s, (s.cacheIndex.getD
        ((indexOffsetT h s.cacheIndex s.cachedRecords.length n).getD invalidNat)
        invalidEdge).2) := by
      rw [findRecord, if_pos hhit]
    rw [heq]
    set io := (indexOffsetT h s.cacheIndex s.cachedRecords.length n).getD invalidNat
      with hiodef
    by_cases hio : io < s.cacheIndex.length
    · rcases h3 _ (getD_mem hio) with hinv | hlt
      · exact absurd (by rw [hinv] at hhit; exact hhit.symm) hn
      · exact hlt
    · have : s.cacheIndex.getD io invalidEdge = invalidEdge := by
        rw [List.getD_eq_getElem?_getD, List.getElem?_eq_none (by omega)]
        rfl
      rw [this] at hhit
      exact absurd hhit.symm hn
  · obtain ⟨hrec, hval⟩ := findRecord_miss h s n hhit
    rw [hrec, hval, List.length_append]
    simp

/-! ## Search states and cached extension (src/cached_gbwt.cpp:76-106)

`SearchState` and `BidirectionalState` live in the missing `gbwt/support.h`; their
shape is modelled from the spec (§3): a closed row-rank interval `[first, second]`
that is empty when the lower bound exceeds the upper bound, with
`size() = second + 1 - first` in 64-bit unsigned arithmetic, and a bidirectional state
whose emptiness is its forward range's emptiness.  The extension functions themselves
are the source of src/cached_gbwt.cpp; the per-record operations `LF`, `bdLF` and
`successor` belong to the external index interface (spec §6) and are parameters. -/

/-- Modelled from the spec: `SearchState` — current node and row-rank interval. -/
structure SearchState where
  node : Nat
  range : Nat × Nat
deriving DecidableEq

/-- Modelled from the spec: the default-constructed `SearchState()` with the canonical
empty range `(1, 0)`, returned by extension of an empty state. -/
def emptySearchState : SearchState := ⟨0, (1, 0)⟩

/-- `SearchState::empty()`: the lower bound exceeds the upper bound (spec §3). -/
def SearchState.empty (st : SearchState) : Prop := st.range.2 < st.range.1

instance (st : SearchState) : Decidable st.empty :=
  inferInstanceAs (Decidable (st.range.2 < st.range.1))

/-- `SearchState::size()` = `Range::length` = `second + 1 - first` in 64-bit unsigned
arithmetic (spec §3: "size = range length"). -/
def rsize (r : Nat × Nat) : Nat := (r.2 % W + 1 + W - r.1 % W) % W

/-- Modelled from the spec: `BidirectionalState` — forward and backward search
states. -/
structure BidirectionalState where
  forward : SearchState
  backward : SearchState
deriving DecidableEq

/-- The default-constructed `BidirectionalState()`. -/
def emptyBidirectionalState : BidirectionalState :=
  ⟨emptySearchState, emptySearchState⟩

/-- `BidirectionalState::empty()` — the spec's trigger for returning an empty state is
the emptiness of the forward range (§4.1). -/
def BidirectionalState.empty (st : BidirectionalState) : Prop := st.forward.empty

instance (st : BidirectionalState) : Decidable st.empty :=
  inferInstanceAs (Decidable st.forward.empty)

/-- `BidirectionalState::flip()` — exchange the forward and backward states. -/
def BidirectionalState.flip (st : BidirectionalState) : BidirectionalState :=
  ⟨st.backward, st.forward⟩

/-- The external record interface consumed by the cache (spec §6): for the record at a
cache offset, `Record.LF(range, node)`, `Record.bdLF(range, node, reverse_offset&)`
and `successor(i)`.  Record contents are opaque external values, so the extension
functions are parametric in this interface. -/
structure RecordOps where
  lf : Nat × Nat → Nat → Nat × Nat
  bdlf : Nat × Nat → Nat → (Nat × Nat) × Nat
  succ : Nat → Nat

/-- `CachedGBWT::cachedExtend` (src/cached_gbwt.cpp:76-84). -/
def cachedExtend (recs : Nat → RecordOps) (st : SearchState)
    (off i : Nat) : SearchState :=
  if st.empty then emptySearchState
  else
    let node := (recs off).succ i
    ⟨node, (recs off).lf st.range node⟩

/-- `CachedGBWT::cachedExtendForward` (src/cached_gbwt.cpp:86-97).  The backward
range's bounds are 64-bit unsigned, so `+=` and the `- 1` wrap modulo `W`. -/
def cachedExtendForward (recs : Nat → RecordOps) (st : BidirectionalState)
    (off i : Nat) : BidirectionalState :=
  if st.empty then emptyBidirectionalState
  else
    let node := (recs off).succ i
    let p := (recs off).bdlf st.forward.range node
    let bf := (st.backward.range.1 + p.2) % W
    let bs := (bf + rsize p.1 + W - 1) % W
    ⟨⟨node, p.1⟩, ⟨st.backward.node, (bf, bs)⟩⟩

/-- `CachedGBWT::cachedExtendBackward` (src/cached_gbwt.cpp:99-106): flip, extend
forward, flip back. -/
def cachedExtendBackward (recs : Nat → RecordOps) (st : BidirectionalState)
    (off i : Nat) : BidirectionalState :=
  (cachedExtendForward recs st.flip off i).flip

theorem W_pos : 0 < W := Nat.pos_pow_of_pos _ (by norm_num)

theorem rsize_lt (r : Nat × Nat) : rsize r < W := Nat.mod_lt _ W_pos

theorem rsize_backward (x rev fs : Nat) (hfs : fs < W) :
    rsize ((x + rev) % W, ((x + rev) % W + fs + W - 1) % W) = fs := by
  have hbfW : (x + rev) % W < W := Nat.mod_lt _ W_pos
  set bf := (x + rev) % W with hbf
  show ((bf + fs + W - 1) % W % W + 1 + W - bf % W) % W = fs
  rw [Nat.mod_mod_of_dvd _ dvd_rfl, Nat.mod_eq_of_lt hbfW]
  have h1 : (bf + fs + W - 1) % W + 1 + W - bf =
      (bf + fs + W - 1) % W + (1 + W - bf) := by omega
  rw [h1, Nat.mod_add_mod]
  have h2 : bf + fs + W - 1 + (1 + W - bf) = fs + 2 * W := by omega
  rw [h2, Nat.add_mul_mod_self_right, Nat.mod_eq_of_lt hfs]

theorem rsize_empty_range : rsize (1, 0) = 0 := by
  show (0 % W + 1 + W - 1 % W) % W = 0
  have h1 : (1 : Nat) < W := by
    rw [W]
    exact Nat.one_lt_two_pow (by norm_num)
  rw [Nat.zero_mod, Nat.mod_eq_of_lt h1]
  have h2 : 0 + 1 + W - 1 = W := by omega
  rw [h2, Nat.mod_self]

theorem extendForward_size_eq (recs : Nat → RecordOps) (st : BidirectionalState)
    (off i : Nat) :
    rsize (cachedExtendForward recs st off i).forward.range =
    rsize (cachedExtendForward recs st off i).backward.range := by
  by_cases hemp : st.empty
  · rw [cachedExtendForward, if_pos hemp]
    rfl
  · rw [cachedExtendForward, if_neg hemp]
    show rsize ((recs off).bdlf st.forward.range ((recs off).succ i)).1 = rsize (_, _)
    exact (rsize_backward _ _ _ (rsize_lt _)).symm

/-- Claim C4: when the forward and backward ranges have equal sizes, both
`cachedExtendForward` and `cachedExtendBackward` — for any record interface, cache
offset and successor index — produce a state whose forward and backward sizes are
again equal.  (The construction of src/cached_gbwt.cpp:94-95 makes the conclusion hold
for every input state; the hypothesis mirrors the claim's phrasing.) -/
theorem extend_preserves_forward_backward_size (recs : Nat → RecordOps)
    (st : BidirectionalState) (off i : Nat)
    (hsz : rsize st.forward.range = rsize st.backward.range) :
    (rsize (cachedExtendForward recs st off i).forward.range =
      rsize (cachedExtendForward recs st off i).backward.range) ∧
    (rsize (cachedExtendBackward recs st off i).forward.range =
      rsize (cachedExtendBackward recs st off i).backward.range) := by
  refine ⟨extendForward_size_eq recs st off i, ?_⟩
  rw [cachedExtendBackward]
  exact (extendForward_size_eq recs st.flip off i).symm

/-- Claim C5: extension of an empty `SearchState` (respectively a
`BidirectionalState` with empty forward range) returns the canonical empty state, is
independent of the record interface, the cache offset and the successor index (no
cache or index access), and the result is again empty — emptiness is absorbing. -/
theorem extend_empty_is_absorbing (recs recs2 : Nat → RecordOps)
    (st : SearchState) (bst : BidirectionalState) (off i off2 i2 : Nat)
    (hst : st.empty) (hbst : bst.empty) :
    cachedExtend recs st off i = emptySearchState ∧
    cachedExtend recs st off i = cachedExtend recs2 st off2 i2 ∧
    (cachedExtend recs st off i).empty ∧
    cachedExtendForward recs bst off i = emptyBidirectionalState ∧
    cachedExtendForward recs bst off i = cachedExtendForward recs2 bst off2 i2 ∧
    (cachedExtendForward recs bst off i).empty := by
  have h1 : cachedExtend recs st off i = emptySearchState := by
    rw [cachedExtend, if_pos hst]
  have h1' : cachedExtend recs2 st off2 i2 = emptySearchState := by
    rw [cachedExtend, if_pos hst]
  have h2 : cachedExtendForward recs bst off i = emptyBidirectionalState := by
    rw [cachedExtendForward, if_pos hbst]
  have h2' : cachedExtendForward recs2 bst off2 i2 = emptyBidirectionalState := by
    rw [cachedExtendForward, if_pos hbst]
  refine ⟨h1, h1.trans h1'.symm, ?_, h2, h2.trans h2'.symm, ?_⟩
  · rw [h1]
    exact Nat.zero_lt_one
  · rw [h2]
    exact Nat.zero_lt_one

/-- Claim C7: removing a valid offset `i` from a dictionary (a duplicate-free key
sequence) shrinks it by one, keeps keys below `i` at their offsets, shifts keys above
`i` down by one preserving their relative order, makes `find` on the removed key
return the new `size()`, and makes `find` on every surviving key return its new
offset. -/
theorem dictionary_remove_compacts (d : List String) (hn : d.Nodup) (i : Nat)
    (hi : i < d.length) :
    (removeAt d i).length = d.length - 1 ∧
    (∀ j, j < i → (removeAt d i).getD j "" = d.getD j "") ∧
    (∀ j, i < j → j < d.length → (removeAt d i).getD (j - 1) "" = d.getD j "") ∧
    findKey (removeAt d i) (d.getD i "") = (removeAt d i).length ∧
    (∀ j, j < i → findKey (removeAt d i) (d.getD j "") = j) ∧
    (∀ j, i < j → j < d.length → findKey (removeAt d i) (d.getD j "") = j - 1) := by
  have hlen := removeAt_length hi
  refine ⟨hlen, fun j hj => removeAt_getD_lt hj (by omega),
    fun j hij hj => removeAt_getD_ge hij hj, ?_, ?_, ?_⟩
  · exact findKey_eq_length_of_not_mem (getD_removed_not_mem hn hi)
  · intro j hj
    have hj' : j < (removeAt d i).length := by omega
    rw [← removeAt_getD_lt hj (by omega)]
    exact findKey_getD (nodup_removeAt hn i) hj'
  · intro j hij hj
    have hj' : j - 1 < (removeAt d i).length := by omega
    rw [← removeAt_getD_ge hij hj]
    exact findKey_getD (nodup_removeAt hn i) hj'

/-- Claim C9: `Dictionary::remove` with an out-of-range offset is a no-op — the
dictionary is unchanged (same keys at the same offsets) and no error is raised
(`removeAt` is a total function). -/
theorem dictionary_remove_out_of_range (d : List String) (i : Nat)
    (hi : d.length ≤ i) : removeAt d i = d :=
  removeAt_of_length_le hi

/-! ## Witnesses: each hypothesis-bearing claim theorem applied at a concrete input -/

theorem indexOffset_no_exhaustion_witness :
    ∃ r, indexOffsetT idHash (findRecord idHash (initCache 2) 5).1.cacheIndex
      (findRecord idHash (initCache 2) 5).1.cachedRecords.length 7 = some r ∧
      r < (findRecord idHash (initCache 2) 5).1.cacheIndex.length ∧
      probeStop (findRecord idHash (initCache 2) 5).1.cacheIndex
        (findRecord idHash (initCache 2) 5).1.cachedRecords.length 7 r :=
  (indexOffset_no_exhaustion idHash
    (Reachable.find _ 5 (Reachable.init 1)) 7 (by decide) (by decide)).1

theorem load_factor_and_capacity_witness :
    100 * (findRecord idHash (initCache 2) 5).1.cachedRecords.length ≤
      77 * (findRecord idHash (initCache 2) 5).1.cacheIndex.length ∧
    100 * occupiedSlots (findRecord idHash (initCache 2) 5).1.cacheIndex ≤
      77 * (findRecord idHash (initCache 2) 5).1.cacheIndex.length ∧
    ∃ k, (findRecord idHash (initCache 2) 5).1.cacheIndex.length = 2 ^ k :=
  load_factor_and_capacity idHash (Reachable.find _ 5 (Reachable.init 1))

theorem extend_preserves_forward_backward_size_witness :
    (rsize (cachedExtendForward (fun _ => ⟨fun r _ => r, fun r n => ((r.1 + n, r.2), 1),
        fun j => j + 4⟩) ⟨⟨2, (0, 4)⟩, ⟨3, (10, 14)⟩⟩ 0 0).forward.range =
      rsize (cachedExtendForward (fun _ => ⟨fun r _ => r, fun r n => ((r.1 + n, r.2), 1),
        fun j => j + 4⟩) ⟨⟨2, (0, 4)⟩, ⟨3, (10, 14)⟩⟩ 0 0).backward.range) ∧
    (rsize (cachedExtendBackward (fun _ => ⟨fun r _ => r, fun r n => ((r.1 + n, r.2), 1),
        fun j => j + 4⟩) ⟨⟨2, (0, 4)⟩, ⟨3, (10, 14)⟩⟩ 0 0).forward.range =
      rsize (cachedExtendBackward (fun _ => ⟨fun r _ => r, fun r n => ((r.1 + n, r.2), 1),
        fun j => j + 4⟩) ⟨⟨2, (0, 4)⟩, ⟨3, (10, 14)⟩⟩ 0 0).backward.range) :=
  extend_preserves_forward_backward_size _ ⟨⟨2, (0, 4)⟩, ⟨3, (10, 14)⟩⟩ 0 0 (by decide)

theorem extend_empty_is_absorbing_witness :
    cachedExtend (fun _ => ⟨fun r _ => r, fun r n => ((r.1 + n, r.2), 1), fun j => j⟩)
      ⟨7, (5, 2)⟩ 0 3 = emptySearchState ∧
    (cachedExtendForward (fun _ => ⟨fun r _ => r, fun r n => ((r.1 + n, r.2), 1),
      fun j => j⟩) ⟨⟨7, (5, 2)⟩, ⟨1, (0, 3)⟩⟩ 0 3).empty :=
  have h := extend_empty_is_absorbing
    (fun _ => ⟨fun r _ => r, fun r n => ((r.1 + n, r.2), 1), fun j => j⟩)
    (fun _ => ⟨fun r _ => r, fun r n => ((r.1 + n, r.2), 1), fun j => j⟩)
    ⟨7, (5, 2)⟩ ⟨⟨7, (5, 2)⟩, ⟨1, (0, 3)⟩⟩ 0 3 0 3 (by decide) (by decide)
  ⟨h.1, h.2.2.2.2.2⟩

theorem rehash_doubles_only_slot_table_witness :
    (rehash idHash (findRecord idHash (initCache 2) 1).1).cacheIndex.length =
      2 * (findRecord idHash (initCache 2) 1).1.cacheIndex.length ∧
    (rehash idHash (findRecord idHash (initCache 2) 1).1).cachedRecords =
      (findRecord idHash (initCache 2) 1).1.cachedRecords ∧
    ((1, 0) ∈ (rehash idHash (findRecord idHash (initCache 2) 1).1).cacheIndex →
      (1, 0) = invalidEdge ∨ (1, 0) ∈ (findRecord idHash (initCache 2) 1).1.cacheIndex) :=
  have h := rehash_doubles_only_slot_table idHash (findRecord idHash (initCache 2) 1).1
  ⟨h.1, h.2.1, fun hm => h.2.2 (1, 0) hm⟩

theorem dictionary_remove_compacts_witness :
    (removeAt ["first", "second", "third", "fourth", "fifth"] 2).length = 4 ∧
    findKey (removeAt ["first", "second", "third", "fourth", "fifth"] 2) "fourth" = 2 ∧
    findKey (removeAt ["first", "second", "third", "fourth", "fifth"] 2) "third" =
      (removeAt ["first", "second", "third", "fourth", "fifth"] 2).length :=
  have h := dictionary_remove_compacts ["first", "second", "third", "fourth", "fifth"]
    (by decide) 2 (by decide)
  ⟨h.1, h.2.2.2.2.2 3 (by decide) (by decide), h.2.2.2.1⟩

theorem sd_predecessor_at_or_beyond_last_witness :
    sdPredecessor ⟨4, 1, 3, [0, 3]⟩ 4 = some (3, 1) :=
  sd_predecessor_at_or_beyond_last ⟨4, 1, 3, [0, 3]⟩
    ⟨by rw [List.chain'_cons]; exact ⟨by norm_num, List.chain'_singleton 3⟩,
      by decide, by decide, fun _ => by decide⟩ (by decide) (by decide)
    (Or.inr ⟨rfl, 2, rfl⟩)

theorem dictionary_remove_out_of_range_witness :
    removeAt ["first", "second", "third", "fourth", "fifth"] 5 =
      ["first", "second", "third", "fourth", "fifth"] :=
  dictionary_remove_out_of_range _ 5 (by decide)

theorem slots_always_index_records_witness :
    ((5, 0) ∈ (findRecord idHash (initCache 2) 5).1.cacheIndex →
      (5, 0) = invalidEdge ∨
      (5, 0).2 < (findRecord idHash (initCache 2) 5).1.cachedRecords.length) ∧
    (findRecord idHash (findRecord idHash (initCache 2) 5).1 7).2 <
      (findRecord idHash (findRecord idHash (initCache 2) 5).1 7).1.cachedRecords.length :=
  have h := slots_always_index_records idHash (Reachable.find _ 5 (Reachable.init 1))
  ⟨fun hm => h.1 (5, 0) hm, h.2 7 (by decide)⟩

end GbwtModel
